import Mathlib

/-! ## Definitions: the embedded program -/

/-!
Verification of the VCMT template agent (`app.py`) against its
natural-language specification.

The development shallowly embeds the pure text-processing core of the
program: whitespace normalisation, evidence-identifier masking, year
validation, unit/section extraction from a flattened document, the
evidence matcher's selection loop, the three statement composers, and the
table row writer.  Machine strings are Lean `String`s; regular-expression
fragments used by the source are compiled by hand into explicit character
scans, each documented at its definition.

Character-set note: the Python source operates on Unicode, but every
character class it uses (`[A-Z]`, `[A-Z0-9]`, `\s`, `\w by adjacency`,
`str.lower`) is exercised only on ASCII text plus the literal non-ASCII
marker characters appearing in the source file itself.  The embedding
models the ASCII fragment of `\s`, `\w` and `str.lower`, and carries the
source file's literal marker characters verbatim (the file's bullet
literal is the three-character sequence U+201A U+00C4 U+00A2, and its
name-separator class is `{'-', ':', U+201A, U+00C4, U+00EC}`).
-/
/-- ASCII fragment of Python's `\s` / `str.strip` whitespace test. -/
def isWsB (c : Char) : Bool :=
  c = ' ' || c = '\t' || c = '\n' || c = '\r' || c = '\x0b' || c = '\x0c'

/-- Python `str.strip()` on a character list: drop whitespace from both ends. -/
def stripWsList (cs : List Char) : List Char :=
  ((cs.dropWhile isWsB).reverse.dropWhile isWsB).reverse

/-- Collapse every maximal run of spaces to a single space.  Composed with a
pointwise map of whitespace to `' '`, this is `re.sub(r"\s+", " ", s)`:
that substitution replaces each maximal whitespace run by one space, and a
maximal whitespace run maps pointwise to a maximal space run. -/
def squeezeSpaces : List Char → List Char
  | [] => []
  | [c] => [c]
  | a :: b :: rest =>
    if a = ' ' && b = ' ' then squeezeSpaces (b :: rest)
    else a :: squeezeSpaces (b :: rest)

/-- `normalise_space` from `app.py` (line 59):
`re.sub(r"\s+", " ", s or "").strip()`. -/
def normalise_space (s : String) : String :=
  String.mk (stripWsList (squeezeSpaces (s.toList.map fun c => if isWsB c then ' ' else c)))

/-- Python `str.lower` on the ASCII alphabet, as a characterwise map. -/
def pyLower (s : String) : String := String.mk (s.toList.map Char.toLower)

/-- `mask_evidence_id` from `app.py` (lines 43-49).  `not eid` is the
empty-string test, `eid.lower() == "pending"` the case-insensitive sentinel
test; otherwise all but the last four characters are replaced by `'*'`,
and a value of length at most four is fully masked (the inner
`if len(s) > 0` arm is kept although the zero-length case was already
caught by the first branch). -/
def mask_evidence_id (eid : String) : String :=
  if eid = "" || pyLower eid = "pending" then "Pending"
  else if eid.length ≤ 4 then
    (if 0 < eid.length then String.mk (List.replicate eid.length '*') else "")
  else String.mk (List.replicate (eid.length - 4) '*' ++ eid.toList.drop (eid.length - 4))

/-- Numeric value of an ASCII digit character. -/
def digitVal (c : Char) : Nat := c.toNat - 48

/-- Digit-run scanner for the ASCII fragment of Python `int()`: after the
first digit, accepts digits and single underscores placed between digits
(the `Bool` flag records whether the previous character was an
underscore, which must be followed by a digit and may not end the run). -/
def digRunS : List Char → Nat → Bool → Option Nat
  | [], acc, afterUnd => if afterUnd then none else some acc
  | c :: rest, acc, afterUnd =>
    if c.isDigit then digRunS rest (acc * 10 + digitVal c) false
    else if c = '_' && !afterUnd then digRunS rest acc true
    else none

/-- Body of an integer literal: a digit followed by a digit/underscore run. -/
def pyIntBody (cs : List Char) : Option Nat :=
  match cs with
  | [] => none
  | c :: rest => if c.isDigit then digRunS rest (digitVal c) false else none

/-- Sign handling of the integer literal, after whitespace stripping. -/
def pyParseIntAux : List Char → Option Int
  | [] => none
  | c :: rest =>
    if c = '+' then (pyIntBody rest).map Int.ofNat
    else if c = '-' then (pyIntBody rest).map fun n => -(Int.ofNat n)
    else (pyIntBody (c :: rest)).map Int.ofNat

/-- ASCII fragment of Python `int(str)`: optional surrounding whitespace,
optional single sign, then digits with optional single underscores between
digits; anything else raises (here: `none`). -/
def pyParseInt (s : String) : Option Int :=
  pyParseIntAux (stripWsList s.toList)

/-- The `try` body of `validate_year`: `none` is the `except` branch. -/
def validate_yearAux (now : Int) (y : String) : Option Int → Bool
  | none => false
  | some year => y.length == 4 && decide (1900 ≤ year) && decide (year ≤ now)

/-- `validate_year` from `app.py` (lines 51-57).  `datetime.now().year` is
the parameter `now`; a failing `int(y)` lands in the `except` branch and
yields `false`. -/
def validate_year (now : Int) (y : String) : Bool :=
  validate_yearAux now y (pyParseInt y)

/-- Standard value of a list of ASCII digit characters. -/
def natOfDigits (cs : List Char) : Nat :=
  cs.foldl (fun a c => a * 10 + digitVal c) 0

/-! ### Whitespace normalisation: structural lemmas -/
/-- Adjacent-space freedom: no two consecutive characters are both `' '`. -/
def noAdjSpaces (l : List Char) : Prop :=
  l.Chain' fun a b => ¬ (a = ' ' ∧ b = ' ')

/-- Whitespace discipline: every whitespace character in the list is `' '`. -/
def wsOnlySpace (l : List Char) : Prop :=
  ∀ c ∈ l, isWsB c = true → c = ' '

/-! ### Statement composers (C4) -/
/-- Python `str.strip()` as a `String` operation. -/
def pyStrip (s : String) : String := String.mk (stripWsList s.toList)

/-- Python `str.rstrip('.')`: remove every trailing `'.'`. -/
def rstripDots (s : String) : String :=
  String.mk ((s.toList.reverse.dropWhile fun c => c = '.').reverse)

/-- The bullet-marker literal appearing in the source file.  The file's
bytes are the UTF-8 encoding of the three characters U+201A U+00C4 U+00A2
(a mojibake rendering of a bullet), so the running program emits exactly
this three-character sequence, not U+2022. -/
def bulletMarker : String := "‚Ä¢"

/-- `construct_part1_statement` from `app.py` (lines 175-179). -/
def construct_part1_statement (application_statement : String)
    (bullet_list : List String) : String :=
  "Within this qualification, I was required to demonstrate competency in the skills and knowledge required to "
    ++ rstripDots (pyStrip application_statement)
    ++ ".\n"
    ++ "Specifically relevant were the following course components:"
    ++ "\n"
    ++ (if bullet_list.isEmpty then bulletMarker ++ " "
        else String.intercalate "\n" (bullet_list.map fun b => bulletMarker ++ " " ++ b))

/-- `construct_part2_statement` from `app.py` (lines 181-184). -/
def construct_part2_statement (unit_code unit_name : String)
    (bullets : List String) : String :=
  "Key responsibilities and tasks relevant to the performance criteria for "
    ++ unit_code ++ " " ++ unit_name ++ ":"
    ++ "\n"
    ++ String.intercalate "\n" (bullets.map fun b => bulletMarker ++ " " ++ b)

/-- `construct_part3_statement` from `app.py` (lines 186-189). -/
def construct_part3_statement (unit_code unit_name : String)
    (bullets : List String) : String :=
  "This professional development enhanced my ability to meet the performance criteria for "
    ++ unit_code ++ " " ++ unit_name ++ ". Specifically, it:"
    ++ "\n"
    ++ String.intercalate "\n" (bullets.map fun b => bulletMarker ++ " " ++ b)

/-! ### Tables, row writer (C5) and export session (C6) -/
/-- A table of the structured document: a column count and the rows, each a
list of cell texts (row 0 is the header row). -/
structure Table where
  nCols : Nat
  rows : List (List String)
deriving DecidableEq

/-- The cell updates of `write_row_to_table` (`app.py` lines 89-91): for
`j, v in enumerate(values[:n_cols])`, set cell `j` to `v` (`v or ""` is the
identity on strings).  Cells beyond the supplied values keep their text. -/
def writeCells (cells values : List String) : List String :=
  values.take cells.length ++ cells.drop (min values.length cells.length)

/-- `write_row_to_table` from `app.py` (lines 84-91): with no row index a
fresh row of empty cells is appended (`table.add_row()`) and written;
otherwise row `row_index` is written in place. -/
def write_row_to_table (t : Table) (values : List String) (row_index : Option Nat) : Table :=
  match row_index with
  | none => { t with rows := t.rows ++ [writeCells (List.replicate t.nCols "") values] }
  | some i => { t with rows := t.rows.set i (writeCells (t.rows.getD i []) values) }

/-- A row is blank when every cell normalises to the empty string
(`all(not normalise_space(c.text) for c in row.cells)`). -/
def rowBlank (r : List String) : Bool := r.all fun c => normalise_space c == ""

/-- The scan of `first_empty_row_index` (`app.py` lines 93-98), carrying the
next row index. -/
def firstBlankFrom : List (List String) → Nat → Option Nat
  | [], _ => none
  | r :: rest, i => if rowBlank r then some i else firstBlankFrom rest (i + 1)

/-- `first_empty_row_index` from `app.py` (lines 93-98): the first data row
(index at least 1) whose cells are all blank, else `None`. -/
def first_empty_row_index (t : Table) : Option Nat :=
  firstBlankFrom (t.rows.drop 1) 1

/-- The caller's insertion pattern (`app.py` lines 425-426, 431-432,
439-440): find the first blank data row and write there, appending when
none exists. -/
def insertRow (t : Table) (values : List String) : Table :=
  write_row_to_table t values (first_empty_row_index t)

/-- A structured document: top-level paragraphs and the tables. -/
structure Document where
  paragraphs : List String
  tables : List Table
deriving DecidableEq

/-- The per-session write state: the loaded document and the deep-cloned
export copy (`export_doc = copy.deepcopy(doc)`, `app.py` line 300) with the
three selected destination table indices (lines 301-303). -/
structure Session where
  doc : Document
  exportDoc : Document
  p1 : Nat
  p2 : Nat
  p3 : Nat

/-- `app.py` lines 300-303: deep-copying yields an independent equal copy.  -/
def startExport (doc : Document) (i1 i2 i3 : Nat) : Session :=
  ⟨doc, doc, i1, i2, i3⟩

/-- Replace table `i` of a document by the result of `f`. -/
def updateTableAt (d : Document) (i : Nat) (f : Table → Table) : Document :=
  { d with tables := d.tables.set i (f (d.tables.getD i ⟨0, []⟩)) }

/-- One confirmed Part 1/2/3 row insertion (`app.py` lines 420-440): the
write goes through `t_part1`/`t_part2`/`t_part3`, which are tables of the
export document, never of the browsing document. -/
def sessionInsert (s : Session) (part : Nat) (values : List String) : Session :=
  let ti := if part = 0 then s.p1 else if part = 1 then s.p2 else s.p3
  { s with exportDoc := updateTableAt s.exportDoc ti fun t => insertRow t values }

/-! ### Unit and section extraction (C1, C2, C3)

The extraction pipeline of `extract_units_from_doc` (`app.py` lines
100-145) is compiled regex by regex:

* `re.findall(r"\b[A-Z]{2,}[A-Z0-9]{2,}\b", text)`: a match must start at
  a word boundary, consist of `[A-Z0-9]` only, and end at a word boundary;
  inside a maximal word-character run the only boundaries are its two
  ends, so the matches are exactly the maximal word-character runs that
  are wholly `[A-Z0-9]`, have length at least 4 (2+2), and start with two
  uppercase letters (the greedy split `[A-Z]{2,}` / `[A-Z0-9]{2,}` exists
  precisely then).
* the name pattern `rf"{code}\s*[-:‚Äì]\s*(.+)"` — note the source file's
  separator class is literally `{'-', ':', U+201A, U+00C4, U+00EC}` — is
  a left-to-right scan for the first occurrence of the code followed by
  optional whitespace, one separator, optional whitespace and a non-empty
  tail, the tail being the capture.  (If the tail after the separator
  were all whitespace, the regex engine would backtrack and capture
  whitespace; the scan is applied only to whitespace-normalised lines,
  where that situation cannot arise.)
* headings are matched by `re.search(rf"^{heading}\b", w, IGNORECASE)`:
  `w` starts with the heading case-insensitively and the next character,
  if any, is not a word character.
* bullet lines are matched by `re.match(r"^[‚Ä¢\-\*•]\s+", line)`:
  first character in the class (which contains both the mojibake marker
  characters and U+2022), second character whitespace.
-/
/-- ASCII fragment of the regex word character `\w`. -/
def isWordCharB (c : Char) : Bool := c.isAlpha || c.isDigit || c = '_'

/-- Split into maximal word-character runs (the accumulator holds the
current run reversed). -/
def wordRunsAux : List Char → List Char → List (List Char)
  | [], acc => if acc.isEmpty then [] else [acc.reverse]
  | c :: rest, acc =>
    if isWordCharB c then wordRunsAux rest (c :: acc)
    else if acc.isEmpty then wordRunsAux rest []
    else acc.reverse :: wordRunsAux rest []

/-- A word run matched by `\b[A-Z]{2,}[A-Z0-9]{2,}\b` (see the section
comment for the derivation): length at least 4, all uppercase-or-digit,
and the first two characters uppercase. -/
def isCodeRun (r : List Char) : Bool :=
  decide (4 ≤ r.length) && r.all (fun c => c.isUpper || c.isDigit) &&
  (r.getD 0 ' ').isUpper && (r.getD 1 ' ').isUpper

/-- `re.findall(r"\b[A-Z]{2,}[A-Z0-9]{2,}\b", s)`. -/
def code_candidates (s : String) : List String :=
  ((wordRunsAux s.toList []).filter isCodeRun).map String.mk

/-- First-occurrence deduplication with an explicit seen list. -/
def dedupAux : List String → List String → List String
  | [], _ => []
  | x :: xs, seen =>
    if seen.contains x then dedupAux xs seen else x :: dedupAux xs (x :: seen)

/-- Deduplicate, keeping first occurrences (the set part of
`sorted(set(code_candidates))`). -/
def dedupFirst (l : List String) : List String := dedupAux l []

/-- Code-point lexicographic order on character lists, as Python compares
strings. -/
def strLeB : List Char → List Char → Bool
  | [], _ => true
  | _ :: _, [] => false
  | a :: as, b :: bs => if a = b then strLeB as bs else decide (a < b)

def insertSorted (x : String) : List String → List String
  | [] => [x]
  | y :: ys => if strLeB x.toList y.toList then x :: y :: ys else y :: insertSorted x ys

/-- Ascending insertion sort; on the duplicate-free output of `dedupFirst`
this agrees with Python's `sorted`. -/
def sortStr : List String → List String
  | [] => []
  | x :: xs => insertSorted x (sortStr xs)

/-- Substring containment, Python's `pat in s`. -/
def hasInfix : List Char → List Char → Bool
  | [], pat => pat.isEmpty
  | c :: rest, pat => pat.isPrefixOf (c :: rest) || hasInfix rest pat

def strContains (s pat : String) : Bool := hasInfix s.toList pat.toList

/-- `[i for i, p in enumerate(paras) if code in p][0]`, or `None`. -/
def findIdxFrom : List String → String → Nat → Option Nat
  | [], _, _ => none
  | p :: ps, code, i => if strContains p code then some i else findIdxFrom ps code (i + 1)

/-- The separator class of the name pattern, as the characters literally
present in the source file (`[-:` followed by U+201A U+00C4 U+00EC `]`). -/
def nameSepChars : List Char := ['-', ':', '‚', 'Ä', 'ì']

/-- Match `code\s*[-:‚Äì]\s*(.+)` anchored at the start of `s`, returning
the capture group. -/
def nameTailAt (code s : List Char) : Option (List Char) :=
  if code.isPrefixOf s then
    match (s.drop code.length).dropWhile isWsB with
    | c :: r1 =>
      if nameSepChars.contains c then
        let r2 := r1.dropWhile isWsB
        if r2.isEmpty then none else some r2
      else none
    | [] => none
  else none

/-- `re.search` of the name pattern: first position whose tail matches. -/
def nameAfterCode (code : List Char) : List Char → Option (List Char)
  | [] => nameTailAt code []
  | c :: rest =>
    match nameTailAt code (c :: rest) with
    | some tail => some tail
    | none => nameAfterCode code rest

/-- Case-insensitive prefix test (`re.IGNORECASE` on ASCII). -/
def ciPrefixB : List Char → List Char → Bool
  | [], _ => true
  | _ :: _, [] => false
  | a :: as, b :: bs => decide (a.toLower = b.toLower) && ciPrefixB as bs

/-- `re.search(rf"^{heading}\b", w, IGNORECASE)` for a literal heading. -/
def headingMatch (heading w : String) : Bool :=
  ciPrefixB heading.toList w.toList &&
  (match w.toList.drop heading.toList.length with
   | [] => true
   | c :: _ => !(isWordCharB c))

/-- The stop test of `grab_section`:
`re.match(r"^(Application Statement|Performance Evidence|Performance Criteria)\b", line, IGNORECASE)`. -/
def isHeadingLine (w : String) : Bool :=
  headingMatch "Application Statement" w || headingMatch "Performance Evidence" w
    || headingMatch "Performance Criteria" w

/-- The character class of the bullet pattern `[‚Ä¢\-\*•]`: the three
mojibake marker characters, `'-'`, `'*'`, and U+2022. -/
def bulletClassChars : List Char := ['‚', 'Ä', '¢', '-', '*', '•']

/-- `re.match(r"^[‚Ä¢\-\*•]\s+", line)`. -/
def isBulletLine (w : String) : Bool :=
  match w.toList with
  | c :: d :: _ => bulletClassChars.contains c && isWsB d
  | _ => false

/-- The lstrip set of `line.lstrip("‚Ä¢-* ")`. -/
def lstripChars : List Char := ['‚', 'Ä', '¢', '-', '*', ' ']

/-- `line.lstrip("‚Ä¢-* ").strip()`. -/
def stripBulletItem (w : String) : String :=
  String.mk (stripWsList (w.toList.dropWhile fun c => lstripChars.contains c))

/-- Word count of `line.split()`, tracking whether the previous character
was inside a word. -/
def countWordsAux : List Char → Bool → Nat
  | [], _ => 0
  | c :: rest, inW =>
    if isWsB c then countWordsAux rest false
    else if inW then countWordsAux rest true
    else 1 + countWordsAux rest true

def countWords (s : String) : Nat := countWordsAux s.toList false

/-- The collection loop of `grab_section` (`app.py` lines 125-131): stop at
the next recognised heading, collect bullet lines and lines of more than
three words, stripped of bullet markers. -/
def collectItems : List String → List String
  | [] => []
  | line :: rest =>
    if isHeadingLine line then []
    else if isBulletLine line || decide (3 < countWords line) then
      stripBulletItem line :: collectItems rest
    else collectItems rest

def findHeadingIdxFrom : List String → String → Nat → Option Nat
  | [], _, _ => none
  | w :: ws, heading, i =>
    if headingMatch heading w then some i else findHeadingIdxFrom ws heading (i + 1)

/-- `grab_section` from `app.py` (lines 119-131). -/
def grab_section (win : List String) (heading : String) : List String :=
  match findHeadingIdxFrom win heading 0 with
  | none => []
  | some hidx => collectItems (win.drop (hidx + 1))

/-- One extracted unit record (`app.py` lines 138-144). -/
structure UnitRec where
  code : String
  name : String
  application_statement : String
  performance_evidence : List String
  performance_criteria : List String
deriving DecidableEq

/-- The per-code body of the extraction loop (`app.py` lines 106-144). -/
def extractUnitStep (paras : List String) (units : List (String × UnitRec))
    (code : String) : List (String × UnitRec) :=
  match findIdxFrom paras code 0 with
  | none => units
  | some idx =>
    let window := (paras.drop (idx - 10)).take (idx + 40 - (idx - 10))
    let unit_name :=
      match nameAfterCode code.toList (paras.getD idx "").toList with
      | some tail => normalise_space (String.mk tail)
      | none =>
        if idx + 1 < paras.length then
          (if 2 < countWords (paras.getD (idx + 1) "") then paras.getD (idx + 1) "" else "")
        else ""
    let app_list := grab_section window "Application Statement"
    let application := if app_list.isEmpty then ([] : List String)
      else [String.intercalate " " app_list]
    let perf_evd := grab_section window "Performance Evidence"
    let perf_crit := grab_section window "Performance Criteria"
    if !application.isEmpty || !perf_evd.isEmpty || !perf_crit.isEmpty then
      units ++ [(code, ⟨code, unit_name, application.headD "", perf_evd, perf_crit⟩)]
    else units

/-- `extract_units_from_doc` from `app.py` (lines 100-145).  Only
`doc.paragraphs` is read — the top-level paragraphs of the document; the
returned association list is in sorted code order, as Python's insertion-
ordered dict keyed over `sorted(set(...))`. -/
def extract_units_from_doc (doc : Document) : List (String × UnitRec) :=
  let paras := (doc.paragraphs.map normalise_space).filter fun p => p ≠ ""
  let full_text := String.intercalate "\n" paras
  let unit_codes := sortStr (dedupFirst (code_candidates full_text))
  unit_codes.foldl (extractUnitStep paras) []

/-- Modelled from the spec: full-string match of the spec's code pattern
"3+ uppercase letters followed by 2+ uppercase letters or digits",
i.e. `[A-Z]{3,}[A-Z0-9]{2,}` — equivalently, length at least 5, first
three characters uppercase, all characters uppercase or digits. -/
def specCodePattern (s : String) : Bool :=
  decide (5 ≤ s.length)
  && (s.toList.take 3).all (fun c => c.isUpper)
  && s.toList.all (fun c => c.isUpper || c.isDigit)

/-! ### Evidence matcher (C7)

`build_common_evidence` (`app.py` lines 151-173) scores each target phrase
by the cosine similarity of its best-matching prior phrase under a TF-IDF
vectorisation.  The floating-point scores are abstracted as a parameter
`scoreOf : Nat → ℚ` giving the score of target index `i`; every property
claimed of the function holds for every score assignment, so nothing about
TF-IDF itself is assumed.  The sort is Python's stable descending
`pairs.sort(key=score, reverse=True)`. -/
/-- Stable descending insertion for the pair sort. -/
def insertDesc (p : String × ℚ) : List (String × ℚ) → List (String × ℚ)
  | [] => [p]
  | q :: qs => if p.2 ≤ q.2 then q :: insertDesc p qs else p :: q :: qs

/-- Descending sort by score. -/
def sortPairsDesc : List (String × ℚ) → List (String × ℚ)
  | [] => []
  | p :: ps => insertDesc p (sortPairsDesc ps)

/-- The selection loop of `build_common_evidence` (`app.py` lines 167-172):
walk the ranked pairs, append each unseen target phrase, stop as soon as
`max_items` are selected. -/
def selectLoop (max_items : Nat) : List (String × ℚ) → List String → List String
  | [], selected => selected
  | (t, _) :: rest, selected =>
    if selected.contains t then selectLoop max_items rest selected
    else
      if max_items ≤ (selected ++ [t]).length then selected ++ [t]
      else selectLoop max_items rest (selected ++ [t])

/-- `build_common_evidence` from `app.py` (lines 151-173), with the
per-target best-match cosine score abstracted as `scoreOf`. -/
def build_common_evidence (scoreOf : Nat → ℚ) (target_evidence : List String)
    (prior_evidence_blocks : List (List String)) (max_items : Nat) : List String :=
  let target := (target_evidence.map normalise_space).filter fun x => x ≠ ""
  let prior := (prior_evidence_blocks.flatten.map normalise_space).filter fun x => x ≠ ""
  if target.isEmpty || prior.isEmpty then []
  else
    selectLoop max_items
      (sortPairsDesc ((List.range target.length).map fun i => (target.getD i "", scoreOf i))) []

/-! ## Theorems -/

theorem mem_of_mem_squeezeSpaces {c : Char} :
    ∀ {l : List Char}, c ∈ squeezeSpaces l → c ∈ l := by
  intro l
  induction l using squeezeSpaces.induct with
  | case1 => simp [squeezeSpaces]
  | case2 d => simp [squeezeSpaces]
  | case3 a b rest h ih =>
    intro hm
    rw [squeezeSpaces, if_pos h] at hm
    exact List.mem_cons_of_mem _ (ih hm)
  | case4 a b rest h ih =>
    intro hm
    rw [squeezeSpaces, if_neg h] at hm
    rcases List.mem_cons.mp hm with rfl | hm
    · exact List.mem_cons_self _ _
    · exact List.mem_cons_of_mem _ (ih hm)

theorem squeezeSpaces_cons_head (a : Char) (l : List Char) :
    ∃ t, squeezeSpaces (a :: l) = a :: t := by
  induction l generalizing a with
  | nil => exact ⟨[], rfl⟩
  | cons b rest ih =>
    by_cases h : (a = ' ' && b = ' ') = true
    · obtain ⟨t, ht⟩ := ih b
      refine ⟨t, ?_⟩
      rw [squeezeSpaces, if_pos h, ht]
      have : a = b := by
        simp only [Bool.and_eq_true, decide_eq_true_eq] at h
        rw [h.1, h.2]
      rw [this]
    · exact ⟨squeezeSpaces (b :: rest), by rw [squeezeSpaces, if_neg h]⟩

theorem noAdjSpaces_squeezeSpaces : ∀ l : List Char, noAdjSpaces (squeezeSpaces l) := by
  intro l
  induction l using squeezeSpaces.induct with
  | case1 => simp [squeezeSpaces, noAdjSpaces]
  | case2 d => simp [squeezeSpaces, noAdjSpaces]
  | case3 a b rest h ih => rw [noAdjSpaces, squeezeSpaces, if_pos h]; exact ih
  | case4 a b rest h ih =>
    rw [noAdjSpaces, squeezeSpaces, if_neg h]
    obtain ⟨t, ht⟩ := squeezeSpaces_cons_head b rest
    rw [ht]
    refine List.chain'_cons.mpr ⟨?_, by rw [noAdjSpaces, ht] at ih; exact ih⟩
    intro ⟨ha, hb⟩
    exact h (by simp [ha, hb])

theorem squeezeSpaces_of_noAdjSpaces : ∀ l : List Char, noAdjSpaces l → squeezeSpaces l = l := by
  intro l
  induction l using squeezeSpaces.induct with
  | case1 => intro _; rfl
  | case2 d => intro _; rfl
  | case3 a b rest h ih =>
    intro hna
    exfalso
    simp only [Bool.and_eq_true, decide_eq_true_eq] at h
    exact (List.chain'_cons.mp hna).1 h
  | case4 a b rest h ih =>
    intro hna
    rw [squeezeSpaces, if_neg h, ih (List.chain'_cons.mp hna).2]

theorem head?_dropWhile_ws {l : List Char} {c : Char}
    (h : (l.dropWhile isWsB).head? = some c) : isWsB c = false := by
  induction l with
  | nil => simp at h
  | cons a t ih =>
    rw [List.dropWhile_cons] at h
    by_cases ha : isWsB a = true
    · exact ih (by rwa [if_pos ha] at h)
    · rw [if_neg ha, List.head?_cons, Option.some.injEq] at h
      rw [← h]
      exact Bool.not_eq_true _ ▸ ha

theorem stripWsList_head? {l : List Char} {c : Char}
    (h : (stripWsList l).head? = some c) : isWsB c = false := by
  rw [stripWsList, List.head?_reverse] at h
  obtain ⟨t, ht⟩ := List.dropWhile_suffix (l := (List.dropWhile isWsB l).reverse) isWsB
  have h2 : (t ++ List.dropWhile isWsB (List.dropWhile isWsB l).reverse).getLast? = some c := by
    rw [List.getLast?_append, h]; rfl
  rw [ht, List.getLast?_reverse] at h2
  exact head?_dropWhile_ws h2

theorem stripWsList_getLast? {l : List Char} {c : Char}
    (h : (stripWsList l).getLast? = some c) : isWsB c = false := by
  rw [stripWsList, List.getLast?_reverse] at h
  exact head?_dropWhile_ws h

theorem dropWhile_of_head_neg {p : Char → Bool} {l : List Char}
    (h : ∀ c, l.head? = some c → p c = false) : l.dropWhile p = l := by
  cases l with
  | nil => rfl
  | cons a t => rw [List.dropWhile_cons, if_neg (by rw [h a rfl]; simp)]

theorem stripWsList_of_trimmed {l : List Char}
    (h1 : ∀ c, l.head? = some c → isWsB c = false)
    (h2 : ∀ c, l.getLast? = some c → isWsB c = false) : stripWsList l = l := by
  rw [stripWsList, dropWhile_of_head_neg h1, dropWhile_of_head_neg
    (fun c hc => h2 c (by rwa [List.head?_reverse] at hc)), List.reverse_reverse]

theorem noAdjSpaces_stripWsList {l : List Char} (h : noAdjSpaces l) :
    noAdjSpaces (stripWsList l) := by
  have hsymm : ∀ {m : List Char}, noAdjSpaces m → noAdjSpaces m.reverse := by
    intro m hm
    rw [noAdjSpaces, List.chain'_reverse]
    exact List.Chain'.imp (fun a b hab => fun ⟨x, y⟩ => hab ⟨y, x⟩) hm
  have s1 : noAdjSpaces (List.dropWhile isWsB l) :=
    List.Chain'.suffix h (List.dropWhile_suffix isWsB)
  have s2 : noAdjSpaces (List.dropWhile isWsB (List.dropWhile isWsB l).reverse) :=
    List.Chain'.suffix (hsymm s1) (List.dropWhile_suffix isWsB)
  exact hsymm s2

theorem wsOnlySpace_stripWsList {l : List Char} (h : wsOnlySpace l) :
    wsOnlySpace (stripWsList l) := by
  intro c hc
  refine h c ?_
  rw [stripWsList, List.mem_reverse] at hc
  have h1 := (List.dropWhile_suffix (l := (List.dropWhile isWsB l).reverse) isWsB).subset hc
  rw [List.mem_reverse] at h1
  exact (List.dropWhile_suffix isWsB).subset h1

theorem wsOnlySpace_mapWs (cs : List Char) :
    wsOnlySpace (cs.map fun c => if isWsB c then ' ' else c) := by
  intro c hc hws
  obtain ⟨d, _, hd⟩ := List.mem_map.mp hc
  by_cases h : isWsB d = true
  · rw [if_pos h] at hd
    exact hd.symm
  · rw [if_neg h] at hd
    rw [← hd] at hws
    exact absurd hws h

theorem wsOnlySpace_squeezeSpaces {l : List Char} (h : wsOnlySpace l) :
    wsOnlySpace (squeezeSpaces l) :=
  fun c hc hws => h c (mem_of_mem_squeezeSpaces hc) hws

theorem map_id_of_fixed {l : List Char} {f : Char → Char}
    (h : ∀ c ∈ l, f c = c) : l.map f = l := by
  rw [List.map_congr_left h]
  exact List.map_id l

theorem normalise_space_toList (s : String) :
    (normalise_space s).toList
      = stripWsList (squeezeSpaces (s.toList.map fun c => if isWsB c then ' ' else c)) := rfl

theorem normalise_space_invariants (s : String) :
    wsOnlySpace (normalise_space s).toList ∧ noAdjSpaces (normalise_space s).toList := by
  rw [normalise_space_toList]
  exact ⟨wsOnlySpace_stripWsList (wsOnlySpace_squeezeSpaces (wsOnlySpace_mapWs _)),
    noAdjSpaces_stripWsList (noAdjSpaces_squeezeSpaces _)⟩

/-- Claim C10: `normalise_space` is idempotent — renormalising an already
normalised string changes nothing — it is a total function, and it maps
the empty string to the empty string.  (Totality is by construction: the
definition is a composition of total list functions.) -/
theorem C10_normalise_space_idempotent (s : String) :
    normalise_space (normalise_space s) = normalise_space s
      ∧ normalise_space "" = "" := by
  refine ⟨?_, rfl⟩
  obtain ⟨hws, hadj⟩ := normalise_space_invariants s
  set L := (normalise_space s).toList with hL
  have hmap : L.map (fun c => if isWsB c then ' ' else c) = L := by
    refine map_id_of_fixed ?_
    intro c hc
    by_cases h : isWsB c = true
    · rw [if_pos h, hws c hc h]
    · rw [if_neg h]
  have hhead : ∀ c, L.head? = some c → isWsB c = false := by
    intro c hc
    rw [hL, normalise_space_toList] at hc
    exact stripWsList_head? hc
  have hlast : ∀ c, L.getLast? = some c → isWsB c = false := by
    intro c hc
    rw [hL, normalise_space_toList] at hc
    exact stripWsList_getLast? hc
  have : normalise_space (normalise_space s)
      = String.mk (stripWsList (squeezeSpaces (L.map fun c => if isWsB c then ' ' else c))) := rfl
  rw [this, hmap, squeezeSpaces_of_noAdjSpaces L hadj, stripWsList_of_trimmed hhead hlast]
  rfl

/-! ### Claim C8: evidence-identifier masking -/
theorem toList_mk (l : List Char) : (String.mk l).toList = l := rfl

theorem drop_replicate_append (n : Nat) (l2 : List Char) :
    (List.replicate n '*' ++ l2).drop n = l2 := by
  have := List.drop_left (List.replicate n '*') l2
  rwa [List.length_replicate] at this

theorem take_replicate_append (n : Nat) (l2 : List Char) :
    (List.replicate n '*' ++ l2).take n = List.replicate n '*' := by
  have := List.take_left (List.replicate n '*') l2
  rwa [List.length_replicate] at this

/-- Claim C8: `mask_evidence_id` maps the sentinel `"Pending"` in any letter
case, and the empty identifier, to exactly `"Pending"`; an identifier of
length at least five keeps its last four characters, each preceding
character replaced by one `'*'`; a non-sentinel identifier of length one to
four is rendered entirely as `'*'`s, so it reveals zero characters — at
most four, and never more of a short value than the four revealed of a
longer one. -/
theorem C8_mask_evidence_id (s t u : String)
    (hs5 : 5 ≤ s.length) (hsp : pyLower s ≠ "pending")
    (ht1 : 1 ≤ t.length) (ht4 : t.length ≤ 4) (htp : pyLower t ≠ "pending")
    (hu : pyLower u = "pending") :
    mask_evidence_id "" = "Pending"
    ∧ mask_evidence_id u = "Pending"
    ∧ (mask_evidence_id s).length = s.length
    ∧ (mask_evidence_id s).toList.drop (s.length - 4) = s.toList.drop (s.length - 4)
    ∧ (∀ c ∈ (mask_evidence_id s).toList.take (s.length - 4), c = '*')
    ∧ (mask_evidence_id t).toList = List.replicate t.length '*' := by
  have hs0 : s ≠ "" := by
    intro he; rw [he] at hs5; simp [String.length] at hs5
  have hmask : (mask_evidence_id s).toList
      = List.replicate (s.length - 4) '*' ++ s.toList.drop (s.length - 4) := by
    rw [mask_evidence_id, if_neg (by simp [hs0, hsp]), if_neg (by omega), toList_mk]
  have hlen : s.toList.length = s.length := rfl
  refine ⟨rfl, ?_, ?_, ?_, ?_, ?_⟩
  · rw [mask_evidence_id, if_pos (by simp [hu])]
  · show (mask_evidence_id s).toList.length = s.length
    rw [hmask, List.length_append, List.length_replicate, List.length_drop, hlen]
    omega
  · rw [hmask, drop_replicate_append]
  · intro c hc
    rw [hmask, take_replicate_append] at hc
    exact List.eq_of_mem_replicate hc
  · have ht0 : t ≠ "" := by
      intro he; rw [he] at ht1; simp [String.length] at ht1
    rw [mask_evidence_id, if_neg (by simp [ht0, htp]), if_pos ht4, if_pos (by omega), toList_mk]

/-- Witness for C8 at concrete identifiers. -/
theorem C8_mask_evidence_id_witness :
    mask_evidence_id "" = "Pending"
    ∧ mask_evidence_id "PENDING" = "Pending"
    ∧ (mask_evidence_id "E123456").length = ("E123456" : String).length
    ∧ (mask_evidence_id "E123456").toList.drop (("E123456" : String).length - 4)
        = ("E123456" : String).toList.drop (("E123456" : String).length - 4)
    ∧ (∀ c ∈ (mask_evidence_id "E123456").toList.take (("E123456" : String).length - 4), c = '*')
    ∧ (mask_evidence_id "abc").toList = List.replicate ("abc" : String).length '*' :=
  C8_mask_evidence_id "E123456" "abc" "PENDING" (by decide) (by decide) (by decide)
    (by decide) (by decide) (by decide)

/-! ### Claim C9: year validation -/
theorem digitVal_le_nine {c : Char} (h : c.isDigit = true) : digitVal c ≤ 9 := by
  simp [Char.isDigit] at h
  have h2 : c.toNat ≤ 57 := h.2
  rw [digitVal]
  omega

theorem underscore_not_digit : ('_').isDigit = false := by decide

theorem digRunS_bound : ∀ (cs : List Char) (acc : Nat) (f : Bool) (n : Nat),
    digRunS cs acc f = some n → n < (acc + 1) * 10 ^ (cs.countP fun c => c.isDigit) := by
  intro cs
  induction cs with
  | nil =>
    intro acc f n h
    rw [digRunS] at h
    by_cases hf : f = true
    · rw [if_pos hf] at h; exact absurd h (by simp)
    · rw [if_neg hf] at h
      simp only [Option.some.injEq] at h
      simp [← h]
  | cons c rest ih =>
    intro acc f n h
    rw [digRunS] at h
    by_cases hd : c.isDigit = true
    · rw [if_pos hd] at h
      have hb := ih (acc * 10 + digitVal c) false n h
      have hdv : digitVal c ≤ 9 := digitVal_le_nine hd
      rw [List.countP_cons, if_pos hd]
      calc n < (acc * 10 + digitVal c + 1) * 10 ^ (rest.countP fun c => c.isDigit) := hb
        _ ≤ ((acc + 1) * 10) * 10 ^ (rest.countP fun c => c.isDigit) := by
              apply Nat.mul_le_mul_right
              omega
        _ = (acc + 1) * 10 ^ ((rest.countP fun c => c.isDigit) + 1) := by ring
    · rw [if_neg hd] at h
      by_cases hu : (c = '_' && !f) = true
      · rw [if_pos hu] at h
        have hb := ih acc true n h
        have hcu : c = '_' := by
          simp only [Bool.and_eq_true, decide_eq_true_eq] at hu
          exact hu.1
        rw [List.countP_cons, if_neg (by rw [hcu]; simp [underscore_not_digit])]
        simpa using hb
      · rw [if_neg hu] at h
        exact absurd h (by simp)

theorem digRunS_chars : ∀ (cs : List Char) (acc : Nat) (f : Bool) (n : Nat),
    digRunS cs acc f = some n → ∀ c ∈ cs, c.isDigit = true ∨ c = '_' := by
  intro cs
  induction cs with
  | nil => intro acc f n _ c hc; exact absurd hc (by simp)
  | cons a rest ih =>
    intro acc f n h c hc
    rw [digRunS] at h
    by_cases hd : a.isDigit = true
    · rw [if_pos hd] at h
      rcases List.mem_cons.mp hc with rfl | hc
      · exact Or.inl hd
      · exact ih _ _ _ h c hc
    · rw [if_neg hd] at h
      by_cases hu : (a = '_' && !f) = true
      · rw [if_pos hu] at h
        rcases List.mem_cons.mp hc with rfl | hc
        · simp only [Bool.and_eq_true, decide_eq_true_eq] at hu
          exact Or.inr hu.1
        · exact ih _ _ _ h c hc
      · rw [if_neg hu] at h
        exact absurd h (by simp)

theorem digRunS_all_digits : ∀ (cs : List Char) (acc : Nat),
    (∀ c ∈ cs, c.isDigit = true) →
    digRunS cs acc false = some (cs.foldl (fun a c => a * 10 + digitVal c) acc) := by
  intro cs
  induction cs with
  | nil => intro acc _; rfl
  | cons c rest ih =>
    intro acc hall
    rw [digRunS, if_pos (hall c (List.mem_cons_self c rest)), List.foldl_cons]
    exact ih _ fun d hd => hall d (List.mem_cons_of_mem _ hd)

theorem pyIntBody_bound {cs : List Char} {n : Nat} (h : pyIntBody cs = some n) :
    n < 10 ^ (cs.countP fun c => c.isDigit) := by
  match cs with
  | [] => exact absurd h (by simp [pyIntBody])
  | c :: rest =>
    rw [pyIntBody] at h
    by_cases hd : c.isDigit = true
    · rw [if_pos hd] at h
      have hb := digRunS_bound rest (digitVal c) false n h
      have hdv : digitVal c ≤ 9 := digitVal_le_nine hd
      rw [List.countP_cons, if_pos hd]
      calc n < (digitVal c + 1) * 10 ^ (rest.countP fun c => c.isDigit) := hb
        _ ≤ 10 * 10 ^ (rest.countP fun c => c.isDigit) := by
              apply Nat.mul_le_mul_right; omega
        _ = 10 ^ ((rest.countP fun c => c.isDigit) + 1) := by ring
    · rw [if_neg hd] at h
      exact absurd h (by simp)

theorem pyIntBody_chars {cs : List Char} {n : Nat} (h : pyIntBody cs = some n) :
    ∀ c ∈ cs, c.isDigit = true ∨ c = '_' := by
  match cs with
  | [] => intro c hc; exact absurd hc (by simp)
  | a :: rest =>
    rw [pyIntBody] at h
    by_cases hd : a.isDigit = true
    · rw [if_pos hd] at h
      intro c hc
      rcases List.mem_cons.mp hc with rfl | hc
      · exact Or.inl hd
      · exact digRunS_chars rest _ false n h c hc
    · rw [if_neg hd] at h
      exact absurd h (by simp)

theorem pyIntBody_all_digits {cs : List Char} (hne : cs ≠ [])
    (hall : ∀ c ∈ cs, c.isDigit = true) : pyIntBody cs = some (natOfDigits cs) := by
  match cs with
  | [] => exact absurd rfl hne
  | c :: rest =>
    rw [pyIntBody, if_pos (hall c (List.mem_cons_self c rest)), natOfDigits, List.foldl_cons]
    have : (0 : Nat) * 10 + digitVal c = digitVal c := by omega
    rw [this]
    exact digRunS_all_digits rest (digitVal c) fun d hd => hall d (List.mem_cons_of_mem _ hd)

theorem digit_not_ws {c : Char} (h : c.isDigit = true) : isWsB c = false := by
  by_contra hws
  rw [Bool.not_eq_false, isWsB] at hws
  simp only [Bool.or_eq_true, decide_eq_true_eq] at hws
  rcases hws with ((((h1 | h1) | h1) | h1) | h1) | h1 <;> subst h1 <;>
    exact absurd h (by decide)

theorem stripWsList_of_no_ws {l : List Char} (h : ∀ c ∈ l, isWsB c = false) :
    stripWsList l = l := by
  refine stripWsList_of_trimmed ?_ ?_
  · intro c hc
    exact h c (List.mem_of_mem_head? (by rw [hc]; rfl))
  · intro c hc
    exact h c (List.mem_of_mem_getLast? (by rw [hc]; rfl))

theorem stripWsList_length_le (l : List Char) : (stripWsList l).length ≤ l.length := by
  rw [stripWsList, List.length_reverse]
  calc (List.dropWhile isWsB (List.dropWhile isWsB l).reverse).length
      ≤ (List.dropWhile isWsB l).reverse.length :=
        (List.dropWhile_suffix isWsB).length_le
    _ = (List.dropWhile isWsB l).length := List.length_reverse _
    _ ≤ l.length := (List.dropWhile_suffix isWsB).length_le

theorem dropWhile_eq_self_of_length {p : Char → Bool} {l : List Char}
    (h : (l.dropWhile p).length = l.length) : l.dropWhile p = l := by
  cases l with
  | nil => rfl
  | cons a t =>
    rw [List.dropWhile_cons] at h ⊢
    by_cases hp : p a = true
    · rw [if_pos hp] at h
      have := (List.dropWhile_suffix (l := t) p).length_le
      simp only [List.length_cons] at h
      omega
    · rw [if_neg hp]

theorem stripWsList_eq_self_of_length {l : List Char}
    (h : (stripWsList l).length = l.length) : stripWsList l = l := by
  have h1 : (List.dropWhile isWsB l).length = l.length := by
    have a1 := (List.dropWhile_suffix (l := l) isWsB).length_le
    have a2 : (List.dropWhile isWsB (List.dropWhile isWsB l).reverse).length
        ≤ (List.dropWhile isWsB l).length := by
      have := (List.dropWhile_suffix (l := (List.dropWhile isWsB l).reverse) isWsB).length_le
      rwa [List.length_reverse] at this
    rw [stripWsList, List.length_reverse] at h
    omega
  have e1 : List.dropWhile isWsB l = l := dropWhile_eq_self_of_length h1
  have h2 : (List.dropWhile isWsB l.reverse).length = l.reverse.length := by
    rw [stripWsList, e1, List.length_reverse] at h
    rw [List.length_reverse]
    exact h
  have e2 : List.dropWhile isWsB l.reverse = l.reverse := dropWhile_eq_self_of_length h2
  rw [stripWsList, e1, e2, List.reverse_reverse]

theorem pow_le_thousand {k : Nat} (hk : k ≤ 3) : 10 ^ k ≤ 1000 := by
  calc 10 ^ k ≤ 10 ^ 3 := Nat.pow_le_pow_right (by norm_num) hk
    _ = 1000 := by norm_num

/-- Claim C9: `validate_year` is a total Boolean test accepting exactly the
strings of four ASCII digits whose value lies between 1900 and the current
year inclusive; given a current year of at least 2023, `"2023"` and
`"1900"` validate while `"99"`, `"20000"`, `"abcd"` and `"1899"` do not.
(Never raising is by construction: the embedded `int()` failure is the
`none` branch, which returns `false`.) -/
theorem C9_validate_year (now : Int) (y : String) (hnow : 2023 ≤ now) :
    (validate_year now y = true ↔
      (y.length = 4 ∧ (∀ c ∈ y.toList, c.isDigit = true)
        ∧ 1900 ≤ (natOfDigits y.toList : Int) ∧ (natOfDigits y.toList : Int) ≤ now))
    ∧ validate_year now "2023" = true
    ∧ validate_year now "1900" = true
    ∧ validate_year now "99" = false
    ∧ validate_year now "20000" = false
    ∧ validate_year now "abcd" = false
    ∧ validate_year now "1899" = false := by
  refine ⟨⟨?_, ?_⟩, ?_, ?_, rfl, rfl, rfl, rfl⟩
  · -- validation success forces four digits in range
    intro h
    rw [validate_year] at h
    cases hpy : pyParseInt y with
    | none => rw [hpy, validate_yearAux] at h; exact absurd h (by simp)
    | some v =>
      rw [hpy, validate_yearAux] at h
      simp only [Bool.and_eq_true, beq_iff_eq, decide_eq_true_eq] at h
      obtain ⟨⟨hlen, h1900⟩, hle⟩ := h
      have hlist : y.toList.length = 4 := hlen
      cases hst : stripWsList y.toList with
      | nil =>
        rw [pyParseInt, hst] at hpy
        exact absurd hpy (by simp [pyParseIntAux])
      | cons c rest =>
        rw [pyParseInt, hst, pyParseIntAux] at hpy
        have hstlen : (c :: rest).length ≤ 4 := by
          rw [← hst, ← hlist]; exact stripWsList_length_le y.toList
        by_cases hcp : c = '+'
        · rw [if_pos hcp] at hpy
          cases hb : pyIntBody rest with
          | none => rw [hb] at hpy; exact absurd hpy (by simp)
          | some n =>
            rw [hb] at hpy; simp only [Option.map_some', Option.some.injEq, Int.ofNat_eq_natCast] at hpy
            have hbound := pyIntBody_bound hb
            have hrl : rest.length ≤ 3 := by simp only [List.length_cons] at hstlen; omega
            have hc3 : (rest.countP fun c => c.isDigit) ≤ 3 :=
              le_trans (List.countP_le_length _) hrl
            have hsmall : n < 1000 := lt_of_lt_of_le hbound (pow_le_thousand hc3)
            exfalso; omega
        · by_cases hcm : c = '-'
          · rw [if_neg hcp, if_pos hcm] at hpy
            cases hb : pyIntBody rest with
            | none => rw [hb] at hpy; exact absurd hpy (by simp)
            | some n =>
              rw [hb] at hpy; simp only [Option.map_some', Option.some.injEq, Int.ofNat_eq_natCast] at hpy
              exfalso
              have : (0 : Int) ≤ (n : Int) := Int.ofNat_nonneg n
              omega
          · rw [if_neg hcp, if_neg hcm] at hpy
            cases hb : pyIntBody (c :: rest) with
            | none => rw [hb] at hpy; exact absurd hpy (by simp)
            | some n =>
              rw [hb] at hpy; simp only [Option.map_some', Option.some.injEq, Int.ofNat_eq_natCast] at hpy
              have hbound := pyIntBody_bound hb
              have hcnt_le : ((c :: rest).countP fun c => c.isDigit) ≤ (c :: rest).length :=
                List.countP_le_length _
              have hfull : (c :: rest).length = 4 := by
                by_contra hne
                have h3 : ((c :: rest).countP fun c => c.isDigit) ≤ 3 := by omega
                have hsmall : n < 1000 := lt_of_lt_of_le hbound (pow_le_thousand h3)
                omega
              have hsteq : stripWsList y.toList = y.toList :=
                stripWsList_eq_self_of_length (by rw [hst, hfull, hlist])
              have hlisteq : y.toList = c :: rest := by rw [← hsteq, hst]
              have hcnt4 : ((c :: rest).countP fun c => c.isDigit) = 4 := by
                by_contra hne
                have h3 : ((c :: rest).countP fun c => c.isDigit) ≤ 3 := by omega
                have hsmall : n < 1000 := lt_of_lt_of_le hbound (pow_le_thousand h3)
                omega
              have halldig : ∀ d ∈ (c :: rest), d.isDigit = true :=
                List.countP_eq_length.mp (by rw [hcnt4, hfull])
              have hval : pyIntBody (c :: rest) = some (natOfDigits (c :: rest)) :=
                pyIntBody_all_digits (by simp) halldig
              have hn : n = natOfDigits (c :: rest) := by
                have := hb.symm.trans hval
                exact Option.some.inj this
              refine ⟨hlen, ?_, ?_, ?_⟩
              · rw [hlisteq]; exact halldig
              · rw [hlisteq, ← hn]; omega
              · rw [hlisteq, ← hn]; omega
  · -- four digits in range validate
    rintro ⟨hlen, hdig, h1900, hle⟩
    have hlist : y.toList.length = 4 := hlen
    have hnws : ∀ c ∈ y.toList, isWsB c = false := fun c hc => digit_not_ws (hdig c hc)
    have hstrip : stripWsList y.toList = y.toList := stripWsList_of_no_ws hnws
    cases hcs : y.toList with
    | nil => rw [hcs] at hlist; exact absurd hlist (by simp)
    | cons c rest =>
      have hcd : c.isDigit = true := hdig c (by rw [hcs]; exact List.mem_cons_self _ _)
      have hcp : ¬ c = '+' := fun he => by rw [he] at hcd; exact absurd hcd (by decide)
      have hcm : ¬ c = '-' := fun he => by rw [he] at hcd; exact absurd hcd (by decide)
      have hbody : pyIntBody (c :: rest) = some (natOfDigits (c :: rest)) :=
        pyIntBody_all_digits (by simp) (fun d hd => hdig d (by rw [hcs]; exact hd))
      have hp : pyParseInt y = some (Int.ofNat (natOfDigits (c :: rest))) := by
        rw [pyParseInt, hstrip, hcs, pyParseIntAux, if_neg hcp, if_neg hcm, hbody,
          Option.map_some']
      rw [validate_year, hp, validate_yearAux]
      simp only [Bool.and_eq_true, beq_iff_eq, decide_eq_true_eq]
      rw [hcs] at h1900 hle
      exact ⟨⟨hlen, h1900⟩, hle⟩
  · -- "2023" validates when the current year is at least 2023
    have e23 : validate_year now "2023" = decide ((2023 : Int) ≤ now) := rfl
    rw [e23]
    exact decide_eq_true hnow
  · -- "1900" validates when the current year is at least 2023
    have e19 : validate_year now "1900" = decide ((1900 : Int) ≤ now) := rfl
    rw [e19]
    exact decide_eq_true (le_trans (by norm_num) hnow)

/-- Witness for C9 at a concrete current year and year string. -/
theorem C9_validate_year_witness :
    (validate_year 2025 "1955" = true ↔
      (("1955" : String).length = 4 ∧ (∀ c ∈ ("1955" : String).toList, c.isDigit = true)
        ∧ 1900 ≤ (natOfDigits ("1955" : String).toList : Int)
        ∧ (natOfDigits ("1955" : String).toList : Int) ≤ 2025))
    ∧ validate_year 2025 "2023" = true
    ∧ validate_year 2025 "1900" = true
    ∧ validate_year 2025 "99" = false
    ∧ validate_year 2025 "20000" = false
    ∧ validate_year 2025 "abcd" = false
    ∧ validate_year 2025 "1899" = false :=
  C9_validate_year 2025 "1955" (by norm_num)

theorem string_append_empty (s : String) : s ++ "" = s := by
  cases s with
  | mk data =>
    show String.mk (data ++ []) = String.mk data
    rw [List.append_nil]

/-- Counterexample to claim C4: with an empty bullet list,
`construct_part2_statement` (and likewise `construct_part3_statement`)
emits no bullet marker at all — the output is the lead-in followed by a
newline and nothing, with zero occurrences of any bullet-marker
character.  Only `construct_part1_statement` has the placeholder branch. -/
theorem C4_counterexample :
    construct_part2_statement "BSBWHS311" "Workplace Health and Safety" []
      = "Key responsibilities and tasks relevant to the performance criteria for BSBWHS311 Workplace Health and Safety:\n"
    ∧ (construct_part2_statement "BSBWHS311" "Workplace Health and Safety" []).toList.count '‚' = 0
    ∧ (construct_part2_statement "BSBWHS311" "Workplace Health and Safety" []).toList.count '•' = 0
    ∧ construct_part3_statement "BSBWHS311" "Workplace Health and Safety" []
      = "This professional development enhanced my ability to meet the performance criteria for BSBWHS311 Workplace Health and Safety. Specifically, it:\n"
    ∧ (construct_part3_statement "BSBWHS311" "Workplace Health and Safety" []).toList.count '‚' = 0
    ∧ (construct_part3_statement "BSBWHS311" "Workplace Health and Safety" []).toList.count '•' = 0 := by
  refine ⟨?_, by decide, by decide, ?_, by decide, by decide⟩ <;> decide

/-- Claim C4 as amended: with an empty bullet list,
`construct_part1_statement` emits a single placeholder bullet marker with no
text, while `construct_part2_statement` and `construct_part3_statement`
omit the bullet section entirely, returning only the lead-in/transition
followed by a trailing newline. -/
theorem C4_amended_empty_bullets (app uc un uc2 un2 : String) :
    construct_part1_statement app []
      = "Within this qualification, I was required to demonstrate competency in the skills and knowledge required to "
        ++ rstripDots (pyStrip app)
        ++ ".\n"
        ++ "Specifically relevant were the following course components:"
        ++ "\n"
        ++ (bulletMarker ++ " ")
    ∧ construct_part2_statement uc un []
      = "Key responsibilities and tasks relevant to the performance criteria for "
        ++ uc ++ " " ++ un ++ ":" ++ "\n"
    ∧ construct_part3_statement uc2 un2 []
      = "This professional development enhanced my ability to meet the performance criteria for "
        ++ uc2 ++ " " ++ un2 ++ ". Specifically, it:" ++ "\n" := by
  refine ⟨rfl, ?_, ?_⟩
  · show _ ++ (String.intercalate "\n" (([] : List String).map fun b => bulletMarker ++ " " ++ b)) = _
    rw [List.map_nil]
    exact string_append_empty _
  · show _ ++ (String.intercalate "\n" (([] : List String).map fun b => bulletMarker ++ " " ++ b)) = _
    rw [List.map_nil]
    exact string_append_empty _

theorem firstBlankFrom_append_blank (pre : List (List String)) (r : List String)
    (post : List (List String)) (i : Nat)
    (hpre : ∀ q ∈ pre, rowBlank q = false) (hr : rowBlank r = true) :
    firstBlankFrom (pre ++ r :: post) i = some (i + pre.length) := by
  induction pre generalizing i with
  | nil => simp [firstBlankFrom, hr]
  | cons q pre ih =>
    rw [List.cons_append, firstBlankFrom,
      if_neg (by rw [hpre q (List.mem_cons_self q pre)]; simp)]
    rw [ih (i + 1) (fun p hp => hpre p (List.mem_cons_of_mem _ hp))]
    simp only [List.length_cons, Option.some.injEq]
    omega

theorem firstBlankFrom_none {l : List (List String)} {i : Nat}
    (h : firstBlankFrom l i = none) : ∀ q ∈ l, rowBlank q = false := by
  induction l generalizing i with
  | nil => intro q hq; exact absurd hq (by simp)
  | cons r rest ih =>
    rw [firstBlankFrom] at h
    by_cases hr : rowBlank r = true
    · rw [if_pos hr] at h; exact absurd h (by simp)
    · rw [if_neg hr] at h
      intro q hq
      rcases List.mem_cons.mp hq with rfl | hq
      · exact Bool.not_eq_true _ ▸ hr
      · exact ih h q hq

theorem writeCells_length (cells values : List String) :
    (writeCells cells values).length = cells.length := by
  rw [writeCells, List.length_append, List.length_take, List.length_drop]
  omega

theorem writeCells_getD (cells values : List String) (j : Nat) (hj : j < cells.length) :
    (writeCells cells values).getD j ""
      = if j < values.length then values.getD j "" else cells.getD j "" := by
  rw [writeCells, List.getD_eq_getElem?_getD, List.getElem?_append]
  have hlen : (values.take cells.length).length = min cells.length values.length :=
    List.length_take _ _
  by_cases hv : j < values.length
  · rw [if_pos hv, if_pos (by rw [hlen]; omega), List.getElem?_take, if_pos hj]
    rw [List.getD_eq_getElem?_getD]
  · rw [if_neg hv, hlen]
    have hvc : values.length < cells.length := by omega
    rw [if_neg (by omega)]
    have hmin1 : min cells.length values.length = values.length := by omega
    have hmin2 : min values.length cells.length = values.length := by omega
    rw [hmin1, hmin2, List.getElem?_drop]
    rw [show values.length + (j - values.length) = j from by omega]
    rw [List.getD_eq_getElem?_getD]

/-- Claim C5: the row-writing path targets the first all-blank data row
(header row 0 excluded), writes values positionally, ignores values beyond
the column count, leaves cells beyond the supplied values untouched, and
appends a fresh row when no blank data row exists; hence inserting into a
table with one blank data row and inserting again first fills the blank
row and then appends, never overwriting the filled row. -/
theorem C5_row_writer (nc : Nat) (hdr r : List String) (pre post : List (List String))
    (cells values vs1 vs2 : List String) (j : Nat) (t2 : Table)
    (hpre : ∀ q ∈ pre, rowBlank q = false)
    (hr : rowBlank r = true)
    (hfill : rowBlank (writeCells r vs1) = false)
    (hj : j < cells.length)
    (hnone : first_empty_row_index t2 = none) :
    first_empty_row_index ⟨nc, hdr :: (pre ++ r :: post)⟩ = some (1 + pre.length)
    ∧ (writeCells cells values).length = cells.length
    ∧ (writeCells cells values).getD j ""
        = (if j < values.length then values.getD j "" else cells.getD j "")
    ∧ (∀ q ∈ t2.rows.drop 1, rowBlank q = false)
    ∧ insertRow t2 values
        = { t2 with rows := t2.rows ++ [writeCells (List.replicate t2.nCols "") values] }
    ∧ insertRow ⟨nc, [hdr, r]⟩ vs1 = ⟨nc, [hdr, writeCells r vs1]⟩
    ∧ insertRow (insertRow ⟨nc, [hdr, r]⟩ vs1) vs2
        = ⟨nc, [hdr, writeCells r vs1, writeCells (List.replicate nc "") vs2]⟩ := by
  have hone : first_empty_row_index ⟨nc, [hdr, r]⟩ = some 1 := by
    rw [first_empty_row_index]
    show firstBlankFrom [r] 1 = some 1
    rw [firstBlankFrom, if_pos hr]
  have hfirst : insertRow ⟨nc, [hdr, r]⟩ vs1 = ⟨nc, [hdr, writeCells r vs1]⟩ := by
    rw [insertRow, hone, write_row_to_table]
    show Table.mk nc ([hdr, r].set 1 (writeCells ([hdr, r].getD 1 []) vs1)) = _
    rfl
  refine ⟨?_, writeCells_length cells values, writeCells_getD cells values j hj, ?_, ?_,
    hfirst, ?_⟩
  · rw [first_empty_row_index]
    show firstBlankFrom (pre ++ r :: post) 1 = some (1 + pre.length)
    exact firstBlankFrom_append_blank pre r post 1 hpre hr
  · rw [first_empty_row_index] at hnone
    exact firstBlankFrom_none hnone
  · rw [insertRow, hnone, write_row_to_table]
  · rw [hfirst, insertRow]
    have hnone2 : first_empty_row_index ⟨nc, [hdr, writeCells r vs1]⟩ = none := by
      rw [first_empty_row_index]
      show firstBlankFrom [writeCells r vs1] 1 = none
      rw [firstBlankFrom, if_neg (by rw [hfill]; simp)]
      rfl
    rw [hnone2, write_row_to_table]
    rfl

/-- Witness for C5 at a concrete table, values and index. -/
theorem C5_row_writer_witness :
    first_empty_row_index ⟨2, ["H1", "H2"] :: ([["x", "y"]] ++ ["", ""] :: [["", ""]])⟩
        = some (1 + [["x", "y"]].length)
    ∧ (writeCells ["a", "b", "c"] ["v"]).length = (["a", "b", "c"] : List String).length
    ∧ (writeCells ["a", "b", "c"] ["v"]).getD 1 ""
        = (if 1 < (["v"] : List String).length
           then (["v"] : List String).getD 1 "" else (["a", "b", "c"] : List String).getD 1 "")
    ∧ (∀ q ∈ (Table.mk 2 [["H"], ["x", "x"]]).rows.drop 1, rowBlank q = false)
    ∧ insertRow (Table.mk 2 [["H"], ["x", "x"]]) ["v"]
        = { Table.mk 2 [["H"], ["x", "x"]] with
            rows := (Table.mk 2 [["H"], ["x", "x"]]).rows
              ++ [writeCells (List.replicate (Table.mk 2 [["H"], ["x", "x"]]).nCols "") ["v"]] }
    ∧ insertRow ⟨2, [["H1", "H2"], ["", ""]]⟩ ["p", "q"]
        = ⟨2, [["H1", "H2"], writeCells ["", ""] ["p", "q"]]⟩
    ∧ insertRow (insertRow ⟨2, [["H1", "H2"], ["", ""]]⟩ ["p", "q"]) ["r", "s"]
        = ⟨2, [["H1", "H2"], writeCells ["", ""] ["p", "q"],
              writeCells (List.replicate 2 "") ["r", "s"]]⟩ :=
  C5_row_writer 2 ["H1", "H2"] ["", ""] [["x", "y"]] [["", ""]]
    ["a", "b", "c"] ["v"] ["p", "q"] ["r", "s"] 1 (Table.mk 2 [["H"], ["x", "x"]])
    (by decide) (by decide) (by decide) (by decide) (by decide)

/-- Claim C6: every sequence of Part 1/2/3 row insertions mutates only the
deep-cloned export document; the browsing document used for extraction is
unchanged, and the export copy starts out equal to it. -/
theorem C6_copy_on_export (d : Document) (i1 i2 i3 : Nat)
    (ws : List (Nat × List String)) :
    (ws.foldl (fun s w => sessionInsert s w.1 w.2) (startExport d i1 i2 i3)).doc = d
    ∧ (startExport d i1 i2 i3).exportDoc = d := by
  refine ⟨?_, rfl⟩
  have key : ∀ (l : List (Nat × List String)) (s : Session),
      (l.foldl (fun s w => sessionInsert s w.1 w.2) s).doc = s.doc := by
    intro l
    induction l with
    | nil => intro s; rfl
    | cons w rest ih =>
      intro s
      rw [List.foldl_cons, ih]
      rfl
  exact key ws _

/-- Counterexample to claim C1: a document whose flattened text is exactly
the line `"Unit: BSBWHS311 - Workplace Health and Safety"` — with none of
the three section headings present — yields no unit record at all: the
guard `if application or perf_evd or perf_crit` (`app.py` line 137) drops
the code, so discovery is not independent of the section headings. -/
theorem C1_counterexample :
    extract_units_from_doc ⟨["Unit: BSBWHS311 - Workplace Health and Safety"], []⟩ = []
    ∧ List.lookup "BSBWHS311"
        (extract_units_from_doc ⟨["Unit: BSBWHS311 - Workplace Health and Safety"], []⟩)
      = none := by
  exact ⟨by decide, by decide⟩

/-- Claim C1 as amended: for a document whose flattened text contains the
line `"Unit: BSBWHS311 - Workplace Health and Safety"`, the extractor
discovers `BSBWHS311` and records its name as
`"Workplace Health and Safety"` provided at least one of the three
recognised sections is found in the window around the code (here a
`"Performance Criteria"` heading with one bullet); with no section present
the code is omitted from the result. -/
theorem C1_amended_name_extraction :
    extract_units_from_doc ⟨["Unit: BSBWHS311 - Workplace Health and Safety",
        "Performance Criteria", "- Identify hazards in the workplace daily"], []⟩
      = [("BSBWHS311", ⟨"BSBWHS311", "Workplace Health and Safety", "",
          [], ["Identify hazards in the workplace daily"]⟩)] := by
  decide

/-- Counterexample to claim C2: extraction reads only `doc.paragraphs`
(`app.py` line 101), so a unit whose text sits entirely inside a table
cell is not discovered, although the very same lines as top-level
paragraphs produce a unit record. -/
theorem C2_counterexample :
    extract_units_from_doc ⟨[],
        [⟨1, [["Unit: SITXWHS005 - Participate in safe work practices\nPerformance Criteria\n- Follow safe work practices at all times"]]⟩]⟩
      = []
    ∧ extract_units_from_doc ⟨["Unit: SITXWHS005 - Participate in safe work practices",
        "Performance Criteria", "- Follow safe work practices at all times"], []⟩
      = [("SITXWHS005", ⟨"SITXWHS005", "Participate in safe work practices", "", [],
          ["Follow safe work practices at all times"]⟩)] := by
  exact ⟨by decide, by decide⟩

/-- Claim C2 as amended: unit extraction operates only over the document's
top-level paragraphs; the tables are never inspected, so the result is
invariant under any change of the tables, and text occurring only inside
table cells is not discovered. -/
theorem C2_amended_paragraphs_only (p : List String) (t t' : List Table) :
    extract_units_from_doc ⟨p, t⟩ = extract_units_from_doc ⟨p, t'⟩ := rfl

/-- Counterexample to claim C3: the code's pattern is
`\b[A-Z]{2,}[A-Z0-9]{2,}\b` — two leading uppercase letters, not three —
so the token `"AB12"` is discovered as a code candidate (and, given a
section, recorded as a unit), while it does not match the spec's
three-uppercase-letter pattern. -/
theorem C3_counterexample :
    code_candidates "AB12 appears here" = ["AB12"]
    ∧ specCodePattern "AB12" = false
    ∧ List.lookup "AB12"
        (extract_units_from_doc ⟨["AB12 - Some unit name", "Performance Criteria",
          "- Maintain safe practices in all work areas"], []⟩)
      = some ⟨"AB12", "Some unit name", "", [], ["Maintain safe practices in all work areas"]⟩ := by
  exact ⟨by decide, by decide, by decide⟩

/-- Claim C3 as amended: every code candidate matches
`[A-Z]{2,}[A-Z0-9]{2,}` as a whole token — at least four characters, all
uppercase letters or digits, the first two being uppercase letters; a
candidate may start with only two uppercase letters. -/
theorem C3_amended_candidate_shape (s c : String) (hc : c ∈ code_candidates s) :
    4 ≤ c.length
    ∧ (∀ ch ∈ c.toList, ch.isUpper = true ∨ ch.isDigit = true)
    ∧ (∀ ch ∈ c.toList.take 2, ch.isUpper = true) := by
  obtain ⟨r, hr, rfl⟩ := List.mem_map.mp hc
  have hcode : isCodeRun r = true := List.of_mem_filter hr
  rw [isCodeRun] at hcode
  simp only [Bool.and_eq_true, decide_eq_true_eq, List.all_eq_true] at hcode
  obtain ⟨⟨⟨hlen, hall⟩, h0⟩, h1⟩ := hcode
  have htl : (String.mk r).toList = r := rfl
  have hln : (String.mk r).length = r.length := rfl
  refine ⟨by rw [hln]; exact hlen, ?_, ?_⟩
  · rw [htl]
    intro ch hch
    have := hall ch hch
    simp only [Bool.or_eq_true] at this
    exact this
  · rw [htl]
    cases r with
    | nil => exact absurd hlen (by simp)
    | cons a r1 =>
      cases r1 with
      | nil => exact absurd hlen (by simp)
      | cons b r2 =>
        intro ch hch
        rw [show List.take 2 (a :: b :: r2) = [a, b] from rfl] at hch
        rcases List.mem_cons.mp hch with rfl | hch
        · exact h0
        · rcases List.mem_cons.mp hch with rfl | hch
          · exact h1
          · exact absurd hch (by simp)

/-- Witness for the amended C3 at a concrete text and candidate. -/
theorem C3_amended_candidate_shape_witness :
    4 ≤ ("AB12" : String).length
    ∧ (∀ ch ∈ ("AB12" : String).toList, ch.isUpper = true ∨ ch.isDigit = true)
    ∧ (∀ ch ∈ ("AB12" : String).toList.take 2, ch.isUpper = true) :=
  C3_amended_candidate_shape "AB12 appears here" "AB12" (by decide)

theorem mem_insertDesc {x p : String × ℚ} :
    ∀ {l : List (String × ℚ)}, x ∈ insertDesc p l → x = p ∨ x ∈ l := by
  intro l
  induction l with
  | nil => intro h; rw [insertDesc] at h; simpa using h
  | cons q qs ih =>
    intro h
    rw [insertDesc] at h
    by_cases hc : p.2 ≤ q.2
    · rw [if_pos hc] at h
      rcases List.mem_cons.mp h with rfl | h
      · exact Or.inr (List.mem_cons_self _ _)
      · rcases ih h with h1 | h1
        · exact Or.inl h1
        · exact Or.inr (List.mem_cons_of_mem _ h1)
    · rw [if_neg hc] at h
      rcases List.mem_cons.mp h with rfl | h
      · exact Or.inl rfl
      · exact Or.inr h

theorem mem_sortPairsDesc {x : String × ℚ} :
    ∀ {l : List (String × ℚ)}, x ∈ sortPairsDesc l → x ∈ l := by
  intro l
  induction l with
  | nil => intro h; exact absurd h (by simp [sortPairsDesc])
  | cons p ps ih =>
    intro h
    rw [sortPairsDesc] at h
    rcases mem_insertDesc h with rfl | h
    · exact List.mem_cons_self _ _
    · exact List.mem_cons_of_mem _ (ih h)

theorem nodup_append_single {l : List String} {t : String}
    (h : l.Nodup) (ht : t ∉ l) : (l ++ [t]).Nodup :=
  List.Nodup.append h (List.nodup_singleton t)
    (fun _ ha hb => ht (List.mem_singleton.mp hb ▸ ha))

theorem selectLoop_nodup (m : Nat) :
    ∀ (ps : List (String × ℚ)) (sel : List String),
      sel.Nodup → (selectLoop m ps sel).Nodup := by
  intro ps
  induction ps with
  | nil => intro sel h; exact h
  | cons p rest ih =>
    intro sel h
    obtain ⟨t, q⟩ := p
    rw [selectLoop]
    by_cases hc : sel.contains t = true
    · rw [if_pos hc]; exact ih sel h
    · rw [if_neg hc]
      have hnm : t ∉ sel := fun hm => hc (by simpa using hm)
      by_cases hstop : m ≤ (sel ++ [t]).length
      · rw [if_pos hstop]; exact nodup_append_single h hnm
      · rw [if_neg hstop]; exact ih _ (nodup_append_single h hnm)

theorem selectLoop_length (m : Nat) :
    ∀ (ps : List (String × ℚ)) (sel : List String),
      sel.length < m → (selectLoop m ps sel).length ≤ m := by
  intro ps
  induction ps with
  | nil => intro sel h; exact Nat.le_of_lt h
  | cons p rest ih =>
    intro sel h
    obtain ⟨t, q⟩ := p
    rw [selectLoop]
    by_cases hc : sel.contains t = true
    · rw [if_pos hc]; exact ih sel h
    · rw [if_neg hc]
      by_cases hstop : m ≤ (sel ++ [t]).length
      · rw [if_pos hstop]
        rw [List.length_append, List.length_singleton]
        omega
      · rw [if_neg hstop]
        refine ih _ ?_
        rw [List.length_append, List.length_singleton] at hstop ⊢
        omega

theorem selectLoop_mem (m : Nat) :
    ∀ (ps : List (String × ℚ)) (sel : List String) (x : String),
      x ∈ selectLoop m ps sel → x ∈ sel ∨ x ∈ ps.map Prod.fst := by
  intro ps
  induction ps with
  | nil => intro sel x h; exact Or.inl h
  | cons p rest ih =>
    intro sel x h
    obtain ⟨t, q⟩ := p
    rw [selectLoop] at h
    by_cases hc : sel.contains t = true
    · rw [if_pos hc] at h
      rcases ih sel x h with h1 | h1
      · exact Or.inl h1
      · exact Or.inr (by rw [List.map_cons]; exact List.mem_cons_of_mem _ h1)
    · rw [if_neg hc] at h
      have hsplit : x ∈ sel ++ [t] → x ∈ sel ∨ x ∈ (((t, q) :: rest).map Prod.fst) := by
        intro hm
        rcases List.mem_append.mp hm with h1 | h1
        · exact Or.inl h1
        · exact Or.inr (by rw [List.map_cons]
                           exact List.mem_singleton.mp h1 ▸ List.mem_cons_self _ _)
      by_cases hstop : m ≤ (sel ++ [t]).length
      · rw [if_pos hstop] at h
        exact hsplit h
      · rw [if_neg hstop] at h
        rcases ih _ x h with h1 | h1
        · exact hsplit h1
        · exact Or.inr (by rw [List.map_cons]; exact List.mem_cons_of_mem _ h1)

theorem getD_mem_of_lt {l : List String} {i : Nat} (h : i < l.length) :
    l.getD i "" ∈ l := by
  rw [List.getD_eq_getElem?_getD, List.getElem?_eq_getElem h]
  exact List.getElem_mem h

/-- Claim C7: `build_common_evidence` returns the empty list when either
side is empty after normalisation and dropping blanks (and never fails —
it is a total function by construction); otherwise, for every similarity
score assignment, the result is a duplicate-free list of at most
`max_items` phrases (the caller uses the default 7), each of which is a
normalised member of the target list, never candidate evidence text. -/
theorem C7_build_common_evidence (scoreOf : Nat → ℚ) (target_evidence : List String)
    (prior_evidence_blocks : List (List String)) (max_items : Nat)
    (hmax : 0 < max_items) :
    (((target_evidence.map normalise_space).filter fun x => x ≠ "").isEmpty = true
        ∨ ((prior_evidence_blocks.flatten.map normalise_space).filter fun x => x ≠ "").isEmpty = true
      → build_common_evidence scoreOf target_evidence prior_evidence_blocks max_items = [])
    ∧ (build_common_evidence scoreOf target_evidence prior_evidence_blocks max_items).Nodup
    ∧ (build_common_evidence scoreOf target_evidence prior_evidence_blocks max_items).length
        ≤ max_items
    ∧ (∀ x ∈ build_common_evidence scoreOf target_evidence prior_evidence_blocks max_items,
        x ∈ (target_evidence.map normalise_space).filter fun x => x ≠ "") := by
  set target := (target_evidence.map normalise_space).filter fun x => x ≠ "" with htarget
  set prior := (prior_evidence_blocks.flatten.map normalise_space).filter fun x => x ≠ ""
    with hprior
  by_cases hempty : (target.isEmpty || prior.isEmpty) = true
  · have hres : build_common_evidence scoreOf target_evidence prior_evidence_blocks max_items
        = [] := by
      rw [build_common_evidence]
      rw [← htarget, ← hprior, if_pos hempty]
    refine ⟨fun _ => hres, ?_, ?_, ?_⟩
    · rw [hres]; exact List.nodup_nil
    · rw [hres]; exact Nat.zero_le _
    · rw [hres]; intro x hx; exact absurd hx (by simp)
  · have hres : build_common_evidence scoreOf target_evidence prior_evidence_blocks max_items
        = selectLoop max_items
            (sortPairsDesc ((List.range target.length).map fun i => (target.getD i "", scoreOf i)))
            [] := by
      rw [build_common_evidence]
      rw [← htarget, ← hprior, if_neg hempty]
    refine ⟨?_, ?_, ?_, ?_⟩
    · intro hor
      exfalso
      apply hempty
      rcases hor with h1 | h1
      · rw [Bool.or_eq_true]; exact Or.inl h1
      · rw [Bool.or_eq_true]; exact Or.inr h1
    · rw [hres]; exact selectLoop_nodup _ _ _ List.nodup_nil
    · rw [hres]; exact selectLoop_length _ _ _ (by simpa using hmax)
    · intro x hx
      rw [hres] at hx
      rcases selectLoop_mem _ _ _ x hx with h1 | h1
      · exact absurd h1 (by simp)
      · obtain ⟨p, hp, hfst⟩ := List.mem_map.mp h1
        have hp2 := mem_sortPairsDesc hp
        obtain ⟨i, hi, hpair⟩ := List.mem_map.mp hp2
        have hilt : i < target.length := List.mem_range.mp hi
        rw [← hfst, ← hpair]
        exact getD_mem_of_lt hilt

/-- Witness for C7 at a concrete score assignment and phrase lists. -/
theorem C7_build_common_evidence_witness :
    ((((["operate machinery safely", "conduct risk assessment"] : List String).map
          normalise_space).filter fun x => x ≠ "").isEmpty = true
        ∨ ((([["I operated heavy machinery daily"]] : List (List String)).flatten.map
          normalise_space).filter fun x => x ≠ "").isEmpty = true
      → build_common_evidence (fun _ => (0 : ℚ))
          ["operate machinery safely", "conduct risk assessment"]
          [["I operated heavy machinery daily"]] 7 = [])
    ∧ (build_common_evidence (fun _ => (0 : ℚ))
        ["operate machinery safely", "conduct risk assessment"]
        [["I operated heavy machinery daily"]] 7).Nodup
    ∧ (build_common_evidence (fun _ => (0 : ℚ))
        ["operate machinery safely", "conduct risk assessment"]
        [["I operated heavy machinery daily"]] 7).length ≤ 7
    ∧ (∀ x ∈ build_common_evidence (fun _ => (0 : ℚ))
          ["operate machinery safely", "conduct risk assessment"]
          [["I operated heavy machinery daily"]] 7,
        x ∈ ((["operate machinery safely", "conduct risk assessment"] : List String).map
          normalise_space).filter fun x => x ≠ "") :=
  C7_build_common_evidence (fun _ => (0 : ℚ))
    ["operate machinery safely", "conduct risk assessment"]
    [["I operated heavy machinery daily"]] 7 (by norm_num)
